import Mathlib

set_option maxRecDepth 10000

/-!
Verification of the Spelling-Correction repository (Levenshtein edit-distance
engine and vocabulary-based spelling corrector).

The definitions below are a shallow embedding of
`spelling_correction/Levenshtein.py` and
`spelling_correction/SpellingCorrector.py`.  Strings are modelled as
`List Char`; the `numpy` `uint8` matrices are modelled as integers reduced
modulo 256 at every store (which is where numpy reduces them); Python's
fallible operations have no counterpart here because the modelled code never
raises on the inputs considered.
-/

namespace SpellingCorrection

/-- Backtrace-matrix tags.  The source exposes them as the "virtual constants"
`NO_EDIT = 0`, `INSERT = 1`, `DELETE = 2`, `REPLACE = 3`. -/
inductive Op where
  | noEdit
  | insert
  | delete
  | replace
deriving DecidableEq, Repr

/-- `source.lower()` / `target.lower()` from `levenshtein.__init__`, modelled
as a character-wise lowercasing (which preserves length). -/
def lower (s : List Char) : List Char := s.map Char.toLower

/-- One freshly filled row `i1 ≥ 1` of the distance matrix
(`levenshtein.build_levenshtein`, inner `for j` loop), given the previous row
`prev`, the source character `sc = source[i1-1]`, and the costs in the
source's parameter order `replace_cost, insert_cost, delete_cost`.
Column 0 is the initialization `distance_matrix[i][0] = i` (stored in a
`uint8` cell, hence `% 256`); column `j+1` is the body of the inner loop:
on equal characters the diagonal value is copied, otherwise
`minimum = min(D[i][j-1], D[i-1][j], D[i-1][j-1])` is taken over the three
already stored neighbor values and the first matching candidate in the order
Insert, Delete, Replace gets its cost added, the sum being stored in a
`uint8` cell. -/
def distRowSucc (prev : ℕ → ℤ) (sc : Char) (tgt : List Char)
    (rc ic dc : ℤ) (i1 : ℕ) : ℕ → ℤ
  | 0 => (i1 : ℤ) % 256
  | j + 1 =>
    if sc = tgt.getD j ' ' then prev j
    else
      let a := distRowSucc prev sc tgt rc ic dc i1 j
      let b := prev (j + 1)
      let c := prev j
      let m := min (min a b) c
      if m = a then (m + ic) % 256
      else if m = b then (m + dc) % 256
      else (m + rc) % 256

/-- The distance matrix `distance_matrix` of `levenshtein.build_levenshtein`,
as a function of the row and column index.  Row 0 is the initialization
`distance_matrix[0][j] = j` (stored in `uint8` cells); row `i+1` is produced
from row `i` by the inner loop, exactly as the source fills the matrix
row-major.  `src` and `tgt` are the lowercased strings stored by
`__init__`. -/
def distM (src tgt : List Char) (rc ic dc : ℤ) : ℕ → ℕ → ℤ
  | 0 => fun j => (j : ℤ) % 256
  | i + 1 => distRowSucc (distM src tgt rc ic dc i) (src.getD i ' ') tgt rc ic dc (i + 1)

/-- One row `i1 ≥ 1` of the backtrace matrix: column 0 is the initialization
`backtrace_matrix[i][0] = DELETE`; column `j+1` records which operation
produced the distance cell, with the same candidate order Insert, Delete,
Replace as `distRowSucc`.  `prev` and `cur` are the distance-matrix rows
`i1-1` and `i1`. -/
def backRowSucc (prev cur : ℕ → ℤ) (sc : Char) (tgt : List Char) : ℕ → Op
  | 0 => Op.delete
  | j + 1 =>
    if sc = tgt.getD j ' ' then Op.noEdit
    else
      let a := cur j
      let b := prev (j + 1)
      let c := prev j
      let m := min (min a b) c
      if m = a then Op.insert
      else if m = b then Op.delete
      else Op.replace

/-- The backtrace matrix `backtrace_matrix` of `levenshtein.build_levenshtein`.
Row 0 is `INSERT` everywhere: the first initialization loop writes `DELETE`
into `backtrace_matrix[0][0]` but the second loop overwrites the whole row 0
(including the corner) with `INSERT`. -/
def backM (src tgt : List Char) (rc ic dc : ℤ) : ℕ → ℕ → Op
  | 0 => fun _ => Op.insert
  | i + 1 =>
    backRowSucc (distM src tgt rc ic dc i) (distM src tgt rc ic dc (i + 1))
      (src.getD i ' ') tgt

/-- `levenshtein.get_edit_distance`: the cell `distance_matrix[M][N]` where
`M = len(source)` and `N = len(target)` (the engine lowercases the strings
before building the matrices). -/
def getEditDistance (source target : List Char) (rc ic dc : ℤ) : ℤ :=
  distM (lower source) (lower target) rc ic dc source.length target.length

/-- The kind of an operation record emitted by
`levenshtein.operations_history` (the `"operation"` entry of the emitted
dictionary). -/
inductive RecKind where
  | inserting
  | deleting
  | replacing
  | no_edit
deriving DecidableEq, Repr

/-- One operation record of `levenshtein.operations_history`: the operation
kind, the `char_index` entry, and the `source_char` / `target_char` entries
(`none` models Python's `None`; `some (k, ch)` models the pair
`(k, character)`). -/
structure OpRec where
  kind : RecKind
  char_index : ℕ
  source_char : Option (ℕ × Char)
  target_char : Option (ℕ × Char)
deriving DecidableEq, Repr

/-- The backtrace walk of `levenshtein.operations_history`: starting from
`(i, j)` it repeatedly reads `backtrace_matrix[i][j]` and appends one record,
decrementing `j` on Insert, `i` on Delete and both on Replace / NoEdit,
until `i = 0` and `j = 0`.  On the borders the matrix is `INSERT` (row 0)
and `DELETE` (column 0) by construction, so those branches are written
directly.  Each step strictly decreases `i + j`, which is why the loop
terminates; the extra `fuel` argument (always called with `fuel ≥ i + j`)
makes that termination measure structural. -/
def opsWalkAux (src tgt : List Char) (rc ic dc : ℤ) : ℕ → ℕ → ℕ → List OpRec
  | 0, _, _ => []
  | _ + 1, 0, 0 => []
  | fuel + 1, 0, j + 1 =>
    ⟨.inserting, j + 1, none, some (j + 1, tgt.getD j ' ')⟩ ::
      opsWalkAux src tgt rc ic dc fuel 0 j
  | fuel + 1, i + 1, 0 =>
    ⟨.deleting, i + 1, some (i + 1, src.getD i ' '), none⟩ ::
      opsWalkAux src tgt rc ic dc fuel i 0
  | fuel + 1, i + 1, j + 1 =>
    match backM src tgt rc ic dc (i + 1) (j + 1) with
    | Op.insert =>
      ⟨.inserting, j + 1, none, some (j + 1, tgt.getD j ' ')⟩ ::
        opsWalkAux src tgt rc ic dc fuel (i + 1) j
    | Op.delete =>
      ⟨.deleting, i + 1, some (i + 1, src.getD i ' '), none⟩ ::
        opsWalkAux src tgt rc ic dc fuel i (j + 1)
    | Op.replace =>
      ⟨.replacing, i + 1, some (i + 1, src.getD i ' '), some (j + 1, tgt.getD j ' ')⟩ ::
        opsWalkAux src tgt rc ic dc fuel i j
    | Op.noEdit =>
      ⟨.no_edit, i + 1, some (i + 1, src.getD i ' '), some (j + 1, tgt.getD j ' ')⟩ ::
        opsWalkAux src tgt rc ic dc fuel i j

/-- The backtrace walk started at `(i, j)` with exactly enough fuel. -/
def opsWalk (src tgt : List Char) (rc ic dc : ℤ) (i j : ℕ) : List OpRec :=
  opsWalkAux src tgt rc ic dc (i + j) i j

/-- `levenshtein.operations_history`: walk from `(M, N)` to `(0, 0)` and
return the collected records reversed (`operations[::-1]`), i.e. in forward
order. -/
def operationsHistory (source target : List Char) (rc ic dc : ℤ) : List OpRec :=
  (opsWalk (lower source) (lower target) rc ic dc source.length target.length).reverse

/-- Modelled from the spec: the operation-history round-trip of §8 ("applying
the emitted operations in order to `source` must reconstruct `target`"),
which is not itself a function of the repository.  Records are applied from
the start of the source string: an `inserting` record emits its target
character and consumes nothing, a `deleting` record consumes one source
character and emits nothing, a `replacing` record consumes one source
character and emits its target character, and a `no_edit` record consumes
one source character and leaves it in place.  The result is `none` when the
records do not fit the string (which never happens for an emitted
history). -/
def applyOps : List OpRec → List Char → Option (List Char)
  | [], [] => some []
  | [], _ :: _ => none
  | r :: rs, s =>
    match r.kind with
    | RecKind.inserting =>
      match r.target_char with
      | some p => (applyOps rs s).map (fun out => p.2 :: out)
      | none => none
    | RecKind.deleting =>
      match s with
      | [] => none
      | _ :: s2 => applyOps rs s2
    | RecKind.replacing =>
      match r.target_char, s with
      | some p, _ :: s2 => (applyOps rs s2).map (fun out => p.2 :: out)
      | _, _ => none
    | RecKind.no_edit =>
      match s with
      | [] => none
      | ch :: s2 => (applyOps rs s2).map (fun out => ch :: out)

/-- Modelled from the spec, §4.1: one row `i1 ≥ 1` of the distance matrix of
the §4.1 algorithm with every arithmetic step reduced modulo 256 (8-bit
storage).  Base case `D[i][0] = i·deleteCost`; matching characters copy the
diagonal; a mismatch takes `minimum` over the three already computed
neighbors and applies the first matching candidate in the priority order
Insert, Delete, Replace. -/
def spec41RowSucc (prev : ℕ → ℤ) (sc : Char) (tgt : List Char)
    (rc ic dc : ℤ) (i1 : ℕ) : ℕ → ℤ
  | 0 => ((i1 : ℤ) * dc) % 256
  | j + 1 =>
    if sc = tgt.getD j ' ' then prev j
    else
      let a := spec41RowSucc prev sc tgt rc ic dc i1 j
      let b := prev (j + 1)
      let c := prev j
      let m := min (min a b) c
      if m = a then (m + ic) % 256
      else if m = b then (m + dc) % 256
      else (m + rc) % 256

/-- Modelled from the spec, §4.1: the distance matrix of the §4.1 algorithm
with every arithmetic step reduced modulo 256.  Base case
`D[0][j] = j·insertCost`. -/
def spec41D (src tgt : List Char) (rc ic dc : ℤ) : ℕ → ℕ → ℤ
  | 0 => fun j => ((j : ℤ) * ic) % 256
  | i + 1 => spec41RowSucc (spec41D src tgt rc ic dc i) (src.getD i ' ') tgt rc ic dc (i + 1)

/-- Modelled from the spec, §4.1: one row of the §4.1 algorithm computed with
unbounded integers (the "result is unbounded by construction" reference
semantics of §4.1). -/
def spec41URowSucc (prev : ℕ → ℤ) (sc : Char) (tgt : List Char)
    (rc ic dc : ℤ) (i1 : ℕ) : ℕ → ℤ
  | 0 => (i1 : ℤ) * dc
  | j + 1 =>
    if sc = tgt.getD j ' ' then prev j
    else
      let a := spec41URowSucc prev sc tgt rc ic dc i1 j
      let b := prev (j + 1)
      let c := prev j
      let m := min (min a b) c
      if m = a then m + ic
      else if m = b then m + dc
      else m + rc

/-- Modelled from the spec, §4.1: the §4.1 distance matrix with unbounded
integers. -/
def spec41U (src tgt : List Char) (rc ic dc : ℤ) : ℕ → ℕ → ℤ
  | 0 => fun j => (j : ℤ) * ic
  | i + 1 => spec41URowSucc (spec41U src tgt rc ic dc i) (src.getD i ' ') tgt rc ic dc (i + 1)

/-- Python's `str.isalpha` as used by `SpellCorrector.__find_misspelled__`:
true on a nonempty all-alphabetic token. -/
def isAlphaTok (w : List Char) : Bool := !w.isEmpty && w.all Char.isAlpha

/-- `SpellCorrector.__find_misspelled__`: tokenization is an external
collaborator (`nltk.word_tokenize`), so the corrector is modelled on the
token sequence it produces (`tokens`).  The tokens are lowercased and a
token is flagged when it is alphabetic and not a member of the
vocabulary. -/
def findMisspelled (tokens vocab : List (List Char)) : List (List Char) :=
  (tokens.map lower).filter (fun w => isAlphaTok w && !(vocab.contains w))

/-- `SpellCorrector.__find_candidates__` for one flagged token `w`: the
vocabulary words whose edit distance from `w`, computed with
`replace_cost=2` (and the engine's default insert/delete costs of 1), is at
most `n_edit`. -/
def findCandidates (vocab : List (List Char)) (nEdit : ℤ) (w : List Char) :
    List (List Char) :=
  vocab.filter (fun v => decide (getEditDistance w v 2 1 1 ≤ nEdit))

/-- `SpellCorrector.__compute_probabilities__` for one candidate: the edit
distance is recomputed with `replace_cost = n_edit` (the threshold reused as
a cost, preserved faithfully), `candidate_frequency` is the number of
occurrences of the candidate in the vocabulary, and the score is
`candidate_frequency * (1 / (n_edit + 1))`.  The source additionally raises
this quantity to the power `lambda_factor = 0.5`; that map is strictly
monotone on the nonnegative reals, so every comparison of probabilities in
`__best_candidate__` coincides with the comparison of these rational
values, which is why the square root is not applied in the model (it has no
exact rational representative). -/
def score (vocab : List (List Char)) (nEdit : ℤ) (w cand : List Char) : ℚ :=
  let d : ℤ := getEditDistance w cand nEdit 1 1
  (vocab.count cand : ℚ) * (1 / ((d : ℚ) + 1))

/-- One step of the selection loop of `SpellCorrector.__best_candidate__`:
`if probability > best_probability: update`. -/
def bestStep (st : ℚ × List Char) (cp : List Char × ℚ) : ℚ × List Char :=
  if cp.2 > st.1 then (cp.2, cp.1) else st

/-- `SpellCorrector.__best_candidate__` for one entry: scan
`zip(candidates, probabilities)` with `best_probability = -1` and
`best_candidate = ""`, keeping the strictly greater probability. -/
def bestCandidate (cands : List (List Char)) (probs : List ℚ) : List Char :=
  ((cands.zip probs).foldl bestStep (-1, [])).2

/-- Modelled from the spec (claim wording): the earliest element of a
candidate/probability list with maximal probability — a later element is
preferred only when its probability is strictly greater. -/
def firstMaxSel : List (List Char × ℚ) → Option (List Char × ℚ)
  | [] => none
  | x :: xs =>
    match firstMaxSel xs with
    | none => some x
    | some y => if y.2 > x.2 then some y else some x

/-- One entry of `SpellCorrector.misspelled_words` after construction: the
flagged token, its candidates, the parallel probability list, and the
`best_candidates` field. -/
structure Entry where
  misspelled : List Char
  candidates : List (List Char)
  probabilities : List ℚ
  best_candidates : List Char
deriving Repr

/-- The fully populated entry for one flagged token, combining
`__find_candidates__`, `__compute_probabilities__` and
`__best_candidate__`. -/
def mkEntry (vocab : List (List Char)) (nEdit : ℤ) (w : List Char) : Entry :=
  let cands := findCandidates vocab nEdit w
  let probs := cands.map (score vocab nEdit w)
  ⟨w, cands, probs, bestCandidate cands probs⟩

/-- `SpellCorrector.misspelled_words` after `__init__` has run all four
passes. -/
def misspelledWords (tokens vocab : List (List Char)) (nEdit : ℤ) : List Entry :=
  (findMisspelled tokens vocab).map (mkEntry vocab nEdit)

/-- `" ".join(self.string)` of `SpellCorrector.retrive_corrected` (by that
point `self.string` is the list of lowercased tokens). -/
def joinSpaces (tokens : List (List Char)) : List Char :=
  List.intercalate [' '] tokens

/-- Python's `str.replace(pat, rep)` (replace every non-overlapping
occurrence, scanning left to right), with a structural `fuel` argument that
is always called with `fuel ≥ length of the string`.  A flagged token is
alphabetic and hence nonempty, so the builtin's empty-pattern behavior is
unreachable from `retrive_corrected`; an empty pattern is modelled as
replacing nothing. -/
def replaceListAux (pat rep : List Char) : ℕ → List Char → List Char
  | 0, s => s
  | _ + 1, [] => []
  | fuel + 1, ch :: s =>
    if !pat.isEmpty && pat.isPrefixOf (ch :: s) then
      rep ++ replaceListAux pat rep fuel (List.drop (pat.length - 1) s)
    else
      ch :: replaceListAux pat rep fuel s

/-- Python's `str.replace` on character lists. -/
def replaceList (pat rep s : List Char) : List Char :=
  replaceListAux pat rep s.length s

/-- `SpellCorrector.retrive_corrected`: join the lowercased tokens with
single spaces, then perform one whole-string replacement per flagged entry,
substituting the entry's `best_candidates` text for every occurrence of the
misspelled token text. -/
def retriveCorrected (tokens vocab : List (List Char)) (nEdit : ℤ) : List Char :=
  (misspelledWords tokens vocab nEdit).foldl
    (fun acc e => replaceList e.misspelled e.best_candidates acc)
    (joinSpaces (tokens.map lower))

/-! ## Helper lemmas about the distance matrix -/

/-- The defining recurrence of an interior distance cell, with the recursive
occurrences folded back into `distM`. -/
theorem distM_succ_succ (src tgt : List Char) (rc ic dc : ℤ) (i j : ℕ) :
    distM src tgt rc ic dc (i + 1) (j + 1) =
      if src.getD i ' ' = tgt.getD j ' ' then distM src tgt rc ic dc i j
      else
        let a := distM src tgt rc ic dc (i + 1) j
        let b := distM src tgt rc ic dc i (j + 1)
        let c := distM src tgt rc ic dc i j
        let m := min (min a b) c
        if m = a then (m + ic) % 256
        else if m = b then (m + dc) % 256
        else (m + rc) % 256 := rfl

/-- The defining recurrence of an interior backtrace cell, with the distance
cells folded back into `distM`. -/
theorem backM_succ_succ (src tgt : List Char) (rc ic dc : ℤ) (i j : ℕ) :
    backM src tgt rc ic dc (i + 1) (j + 1) =
      if src.getD i ' ' = tgt.getD j ' ' then Op.noEdit
      else
        let a := distM src tgt rc ic dc (i + 1) j
        let b := distM src tgt rc ic dc i (j + 1)
        let c := distM src tgt rc ic dc i j
        let m := min (min a b) c
        if m = a then Op.insert
        else if m = b then Op.delete
        else Op.replace := rfl

/-- Every cell of the distance matrix is nonnegative: every stored value is
either a value reduced modulo 256 or a copy of an earlier cell. -/
theorem distM_nonneg (src tgt : List Char) (rc ic dc : ℤ) :
    ∀ i j, 0 ≤ distM src tgt rc ic dc i j := by
  intro i
  induction i with
  | zero => intro j; exact Int.emod_nonneg _ (by norm_num)
  | succ i ih =>
    intro j
    cases j with
    | zero => exact Int.emod_nonneg _ (by norm_num)
    | succ j =>
      rw [distM_succ_succ]
      by_cases hc : src.getD i ' ' = tgt.getD j ' '
      · rw [if_pos hc]; exact ih j
      · rw [if_neg hc]
        dsimp only
        split_ifs <;> exact Int.emod_nonneg _ (by norm_num)

/-- A §4.1 row with unit insert/delete costs agrees with the implementation's
row whenever the previous rows agree. -/
theorem spec41RowSucc_congr (p q : ℕ → ℤ) (sc : Char) (tgt : List Char)
    (rc : ℤ) (i1 : ℕ) (hp : ∀ j, p j = q j) :
    ∀ j, spec41RowSucc p sc tgt rc 1 1 i1 j = distRowSucc q sc tgt rc 1 1 i1 j := by
  intro j
  induction j with
  | zero => simp [spec41RowSucc, distRowSucc]
  | succ j ih =>
    by_cases hc : sc = tgt.getD j ' '
    · simp only [spec41RowSucc, distRowSucc, if_pos hc]; exact hp j
    · simp only [spec41RowSucc, distRowSucc, if_neg hc]
      rw [ih, hp j, hp (j + 1)]

/-- With unit insert and delete costs the §4.1 algorithm, carried out with
every arithmetic step reduced modulo 256, fills exactly the implementation's
matrix. -/
theorem spec41D_eq_distM (src tgt : List Char) (rc : ℤ) :
    ∀ i j, spec41D src tgt rc 1 1 i j = distM src tgt rc 1 1 i j := by
  intro i
  induction i with
  | zero => intro j; simp [spec41D, distM]
  | succ i ih => exact spec41RowSucc_congr _ _ _ _ _ _ ih

/-! ## Claims about the matrix construction -/

/-- C2: the claim says `D[i][0] = i·deleteCost` and `D[0][j] = j·insertCost`
for every cost triple, i.e. `distance("", t) = len(t)·insertCost` and
`distance(s, "") = len(s)·deleteCost`.  The initialization loops of
`build_levenshtein` write the bare indices `i` and `j` instead, ignoring the
configured costs, although the class documents support for custom costs and
`get_edit_distance` documents returning the minimum transformation cost.
At `source=""`, `target="a"`, `insert_cost=2` the code returns 1 where the
claim (and the code's own documentation) requires 2; at `source="a"`,
`target=""`, `delete_cost=3` it returns 1 instead of 3. -/
theorem border_cells_ignore_costs :
    getEditDistance [] ['a'] 1 2 1 = 1 ∧ getEditDistance [] ['a'] 1 2 1 ≠ 1 * 2 ∧
    getEditDistance ['a'] [] 1 1 3 = 1 ∧ getEditDistance ['a'] [] 1 1 3 ≠ 1 * 3 :=
  ⟨by decide, by decide, by decide, by decide⟩

/-- C3 (amended): an interior cell copies the diagonal on matching characters;
on a mismatch it stores `minimum + cost of the first operation in the
priority order Insert, Delete, Replace whose raw neighbor value equals
`minimum = min(D[i][j-1], D[i-1][j], D[i-1][j-1])`, the sum being reduced
modulo 256 by the 8-bit storage.  (The original claim's formula
`min(D[i][j-1]+insertCost, D[i-1][j]+deleteCost, D[i-1][j-1]+replaceCost)`
does not hold for arbitrary cost triples, see the counterexample.) -/
theorem cell_recurrence_priority_form (source target : List Char)
    (rc ic dc : ℤ) (i j : ℕ) (hi : i < source.length) (hj : j < target.length) :
    ((lower source).getD i ' ' = (lower target).getD j ' ' →
      distM (lower source) (lower target) rc ic dc (i + 1) (j + 1) =
        distM (lower source) (lower target) rc ic dc i j) ∧
    ((lower source).getD i ' ' ≠ (lower target).getD j ' ' →
      distM (lower source) (lower target) rc ic dc (i + 1) (j + 1) =
        (let a := distM (lower source) (lower target) rc ic dc (i + 1) j
         let b := distM (lower source) (lower target) rc ic dc i (j + 1)
         let c := distM (lower source) (lower target) rc ic dc i j
         let m := min (min a b) c
         if m = a then (m + ic) % 256
         else if m = b then (m + dc) % 256
         else (m + rc) % 256)) := by
  constructor
  · intro h
    rw [distM_succ_succ, if_pos h]
  · intro h
    rw [distM_succ_succ, if_neg h]

/-- C3 witness: the mismatch case of `cell_recurrence_priority_form`
evaluated at `source="a"`, `target="b"`, `replace_cost=7`, unit insert and
delete costs: the diagonal neighbor 0 is the unique minimum, so the cell
stores `0 + 7`. -/
theorem cell_recurrence_priority_form_witness :
    distM (lower ['a']) (lower ['b']) 7 1 1 1 1 = 7 :=
  ((cell_recurrence_priority_form ['a'] ['b'] 7 1 1 0 0 (by decide) (by decide)).2
    (by decide)).trans (by decide)

/-- C3 counterexample: at `source="a"`, `target="b"`, `replace_cost=5`, unit
insert and delete costs, the interior cell `D[1][1]` stores 5 (the minimal
raw neighbor 0 plus the replace cost), while the claimed formula
`min(D[1][0]+insertCost, D[0][1]+deleteCost, D[0][0]+replaceCost)` evaluates
to 2. -/
theorem cell_recurrence_min_of_sums_fails :
    distM (lower ['a']) (lower ['b']) 5 1 1 1 1 = 5 ∧
    min (min (distM (lower ['a']) (lower ['b']) 5 1 1 1 0 + 1)
          (distM (lower ['a']) (lower ['b']) 5 1 1 0 1 + 1))
        (distM (lower ['a']) (lower ['b']) 5 1 1 0 0 + 5) = 2 ∧
    (5 : ℤ) ≠ 2 :=
  ⟨by decide, by decide, by decide⟩

/-- C4 (amended): at an interior mismatch cell the implementation computes
`minimum` over the three raw neighbor values (costs not yet added) and
applies the first matching candidate in the fixed order Insert
(`D[i][j-1]`), Delete (`D[i-1][j]`), Replace: the distance cell stores
`minimum` plus that operation's cost reduced modulo 256 (8-bit storage; equal
to `minimum + cost` whenever that sum is below 256), and the backtrace cell
stores that operation's tag.  When neighbor values tie, Insert wins over
Delete, which wins over Replace. -/
theorem mismatch_priority_tie_break (source target : List Char)
    (rc ic dc : ℤ) (i j : ℕ) (hi : i < source.length) (hj : j < target.length)
    (hne : (lower source).getD i ' ' ≠ (lower target).getD j ' ')
    (a b c m : ℤ)
    (hA : a = distM (lower source) (lower target) rc ic dc (i + 1) j)
    (hB : b = distM (lower source) (lower target) rc ic dc i (j + 1))
    (hC : c = distM (lower source) (lower target) rc ic dc i j)
    (hM : m = min (min a b) c) :
    (m = a →
      distM (lower source) (lower target) rc ic dc (i + 1) (j + 1) = (m + ic) % 256 ∧
      backM (lower source) (lower target) rc ic dc (i + 1) (j + 1) = Op.insert) ∧
    (m ≠ a → m = b →
      distM (lower source) (lower target) rc ic dc (i + 1) (j + 1) = (m + dc) % 256 ∧
      backM (lower source) (lower target) rc ic dc (i + 1) (j + 1) = Op.delete) ∧
    (m ≠ a → m ≠ b →
      distM (lower source) (lower target) rc ic dc (i + 1) (j + 1) = (m + rc) % 256 ∧
      backM (lower source) (lower target) rc ic dc (i + 1) (j + 1) = Op.replace) := by
  subst hA hB hC hM
  rw [distM_succ_succ, backM_succ_succ, if_neg hne, if_neg hne]
  dsimp only
  refine ⟨fun ha => ?_, fun ha hb => ?_, fun ha hb => ?_⟩
  · rw [if_pos ha, if_pos ha]; exact ⟨rfl, rfl⟩
  · rw [if_neg ha, if_neg ha, if_pos hb, if_pos hb]; exact ⟨rfl, rfl⟩
  · rw [if_neg ha, if_neg ha, if_neg hb, if_neg hb]; exact ⟨rfl, rfl⟩

/-- C4 witness: `mismatch_priority_tie_break` evaluated on `source="ab"`,
`target="cd"` with unit costs.  At cell (1,2) the Insert neighbor and the
Replace neighbor tie at the minimum 1 and Insert is chosen; at cell (2,1)
the Delete neighbor and the Replace neighbor tie at the minimum 1 and Delete
is chosen. -/
theorem mismatch_priority_tie_break_witness :
    (distM (lower ['a','b']) (lower ['c','d']) 1 1 1 1 2 = 2 ∧
      backM (lower ['a','b']) (lower ['c','d']) 1 1 1 1 2 = Op.insert) ∧
    (distM (lower ['a','b']) (lower ['c','d']) 1 1 1 2 1 = 2 ∧
      backM (lower ['a','b']) (lower ['c','d']) 1 1 1 2 1 = Op.delete) := by
  have h1 :=
    (mismatch_priority_tie_break ['a','b'] ['c','d'] 1 1 1 0 1 (by decide) (by decide)
      (by decide) 1 2 1 1 (by decide) (by decide) (by decide) (by decide)).1 rfl
  have h2 :=
    (mismatch_priority_tie_break ['a','b'] ['c','d'] 1 1 1 1 0 (by decide) (by decide)
      (by decide) 2 1 1 1 (by decide) (by decide) (by decide) (by decide)).2.1
      (by decide) rfl
  exact ⟨⟨h1.1.trans (by decide), h1.2⟩, ⟨h2.1.trans (by decide), h2.2⟩⟩

/-- C4 counterexample: the cell value is the wrapped `(minimum + cost) % 256`,
not `minimum + cost`: with `replace_cost = 300` the mismatch cell `D[1][1]`
of `source="a"`, `target="b"` stores `(0 + 300) % 256 = 44`. -/
theorem mismatch_value_wraps_mod256 :
    distM (lower ['a']) (lower ['b']) 300 1 1 1 1 = 44 ∧
    distM (lower ['a']) (lower ['b']) 300 1 1 1 1 ≠ 0 + 300 :=
  ⟨by decide, by decide⟩

/-- C7 (amended): every distance-matrix cell is stored in an 8-bit unsigned
integer; with the engine's unit insert and delete costs (and any replace
cost) every cell, and hence `get_edit_distance`, equals the value the §4.1
algorithm computes when every arithmetic step is reduced modulo 256.  For
`source=""` and a 256-character target the unbounded §4.1 distance is
256 > 255 while `get_edit_distance` returns the silently wrapped value 0.
(For non-unit insert/delete costs the border cells differ from §4.1, see the
counterexample and C2.) -/
theorem uint8_stepwise_mod_refines_spec41 :
    (∀ (src tgt : List Char) (rc : ℤ) (i j : ℕ),
        spec41D src tgt rc 1 1 i j = distM src tgt rc 1 1 i j) ∧
    spec41U [] (List.replicate 256 'a') 1 1 1 0 256 = 256 ∧
    getEditDistance [] (List.replicate 256 'a') 1 1 1 = 0 ∧
    getEditDistance [] (List.replicate 256 'a') 1 1 1 ≠
      spec41U [] (List.replicate 256 'a') 1 1 1 0 256 :=
  ⟨fun src tgt rc => spec41D_eq_distM src tgt rc, by decide, by decide, by decide⟩

/-- C7 counterexample: the claim's identification of the stored cells with
the stepwise-mod-256 §4.1 algorithm fails for non-unit costs, because the
§4.1 base cases scale the border by the costs while the code stores the bare
index: with `insert_cost=3` the cell `D[0][1]` of `source=""`, `target="a"`
is 1 in the code but 3 in the §4.1 algorithm. -/
theorem spec41_borders_differ_nonunit_costs :
    getEditDistance [] ['a'] 1 3 1 = 1 ∧
    spec41D (lower []) (lower ['a']) 1 3 1 0 1 = 3 ∧
    getEditDistance [] ['a'] 1 3 1 ≠ spec41D (lower []) (lower ['a']) 1 3 1 0 1 :=
  ⟨by decide, by decide, by decide⟩

/-! ## Helper lemmas about the operation history -/

/-- An interior backtrace cell reads `NoEdit` only at equal characters. -/
theorem backM_noEdit_char_eq (src tgt : List Char) (rc ic dc : ℤ) (i j : ℕ)
    (h : backM src tgt rc ic dc (i + 1) (j + 1) = Op.noEdit) :
    src.getD i ' ' = tgt.getD j ' ' := by
  by_contra hc
  rw [backM_succ_succ, if_neg hc] at h
  dsimp only at h
  split_ifs at h

/-- Taking one more element appends the element read through `getD`. -/
theorem take_succ_getD (l : List Char) (j : ℕ) (h : j < l.length) :
    l.take (j + 1) = l.take j ++ [l.getD j ' '] := by
  rw [List.take_succ, List.getElem?_eq_getElem h,
    List.getD_eq_getElem?_getD, List.getElem?_eq_getElem h]
  rfl

/-- Applying a record list to a nonempty string that the list does not fully
consume fails. -/
theorem applyOps_nil_snoc (s : List Char) (a : Char) :
    applyOps [] (s ++ [a]) = none := by
  cases s <;> rfl

/-- A trailing source-consuming record fails on an exhausted source. -/
theorem applyOps_snoc_consume_nil (r : OpRec) (hk : r.kind ≠ RecKind.inserting) :
    ∀ ops, applyOps (ops ++ [r]) [] = none := by
  intro ops
  induction ops with
  | nil =>
    obtain ⟨k, ci, sc, tc⟩ := r
    cases k with
    | inserting => exact absurd rfl hk
    | deleting => rfl
    | replacing => cases tc <;> rfl
    | no_edit => rfl
  | cons r0 rs ih =>
    obtain ⟨k0, ci0, sc0, tc0⟩ := r0
    cases k0 with
    | inserting =>
      cases tc0 with
      | none => rfl
      | some p =>
        simp only [List.cons_append, List.append_eq, applyOps]
        rw [ih]
        rfl
    | deleting => rfl
    | replacing => cases tc0 <;> rfl
    | no_edit => rfl

/-- A trailing `inserting` record appends its target character to the
output. -/
theorem applyOps_snoc_ins (k ci : ℕ) (sc : Option (ℕ × Char)) (ch : Char) :
    ∀ (ops : List OpRec) (s : List Char),
      applyOps (ops ++ [⟨RecKind.inserting, ci, sc, some (k, ch)⟩]) s =
        (applyOps ops s).map (fun out => out ++ [ch]) := by
  intro ops
  induction ops with
  | nil => intro s; cases s <;> rfl
  | cons r0 rs ih =>
    intro s
    obtain ⟨k0, ci0, sc0, tc0⟩ := r0
    cases k0 with
    | inserting =>
      cases tc0 with
      | none => rfl
      | some p =>
        simp only [List.cons_append, List.append_eq, applyOps]
        rw [ih]
        cases applyOps rs s <;> rfl
    | deleting =>
      cases s with
      | nil => rfl
      | cons b s2 =>
        simp only [List.cons_append, List.append_eq, applyOps]
        exact ih s2
    | replacing =>
      cases tc0 with
      | none => rfl
      | some p =>
        cases s with
        | nil => rfl
        | cons b s2 =>
          simp only [List.cons_append, List.append_eq, applyOps]
          rw [ih]
          cases applyOps rs s2 <;> rfl
    | no_edit =>
      cases s with
      | nil => rfl
      | cons b s2 =>
        simp only [List.cons_append, List.append_eq, applyOps]
        rw [ih]
        cases applyOps rs s2 <;> rfl

/-- A trailing `deleting` record consumes the last source character. -/
theorem applyOps_snoc_del (ci : ℕ) (sc tc : Option (ℕ × Char)) (a : Char) :
    ∀ (ops : List OpRec) (s : List Char),
      applyOps (ops ++ [⟨RecKind.deleting, ci, sc, tc⟩]) (s ++ [a]) =
        applyOps ops s := by
  intro ops
  induction ops with
  | nil =>
    intro s
    cases s with
    | nil => rfl
    | cons b s2 =>
      simp only [List.nil_append, List.cons_append, List.append_eq, applyOps]
      rw [applyOps_nil_snoc]
  | cons r0 rs ih =>
    intro s
    obtain ⟨k0, ci0, sc0, tc0⟩ := r0
    cases k0 with
    | inserting =>
      cases tc0 with
      | none => rfl
      | some p =>
        simp only [List.cons_append, List.append_eq, applyOps]
        rw [ih]
    | deleting =>
      cases s with
      | nil =>
        simp only [List.nil_append, List.cons_append, List.append_eq, applyOps]
        exact applyOps_snoc_consume_nil _ (by simp) rs
      | cons b s2 =>
        simp only [List.cons_append, List.append_eq, applyOps]
        exact ih s2
    | replacing =>
      cases tc0 with
      | none => rfl
      | some p =>
        cases s with
        | nil =>
          simp only [List.nil_append, List.cons_append, List.append_eq, applyOps]
          rw [applyOps_snoc_consume_nil _ (by simp) rs]
          rfl
        | cons b s2 =>
          simp only [List.cons_append, List.append_eq, applyOps]
          rw [ih]
    | no_edit =>
      cases s with
      | nil =>
        simp only [List.nil_append, List.cons_append, List.append_eq, applyOps]
        rw [applyOps_snoc_consume_nil _ (by simp) rs]
        rfl
      | cons b s2 =>
        simp only [List.cons_append, List.append_eq, applyOps]
        rw [ih]

/-- A trailing `replacing` record consumes the last source character and
appends its target character. -/
theorem applyOps_snoc_rep (k ci : ℕ) (sc : Option (ℕ × Char)) (ch a : Char) :
    ∀ (ops : List OpRec) (s : List Char),
      applyOps (ops ++ [⟨RecKind.replacing, ci, sc, some (k, ch)⟩]) (s ++ [a]) =
        (applyOps ops s).map (fun out => out ++ [ch]) := by
  intro ops
  induction ops with
  | nil =>
    intro s
    cases s with
    | nil => rfl
    | cons b s2 =>
      simp only [List.nil_append, List.cons_append, List.append_eq, applyOps]
      rw [applyOps_nil_snoc]
      rfl
  | cons r0 rs ih =>
    intro s
    obtain ⟨k0, ci0, sc0, tc0⟩ := r0
    cases k0 with
    | inserting =>
      cases tc0 with
      | none => rfl
      | some p =>
        simp only [List.cons_append, List.append_eq, applyOps]
        rw [ih]
        cases applyOps rs s <;> rfl
    | deleting =>
      cases s with
      | nil =>
        simp only [List.nil_append, List.cons_append, List.append_eq, applyOps]
        exact applyOps_snoc_consume_nil _ (by simp) rs
      | cons b s2 =>
        simp only [List.cons_append, List.append_eq, applyOps]
        exact ih s2
    | replacing =>
      cases tc0 with
      | none => rfl
      | some p =>
        cases s with
        | nil =>
          simp only [List.nil_append, List.cons_append, List.append_eq, applyOps]
          rw [applyOps_snoc_consume_nil _ (by simp) rs]
          rfl
        | cons b s2 =>
          simp only [List.cons_append, List.append_eq, applyOps]
          rw [ih]
          cases applyOps rs s2 <;> rfl
    | no_edit =>
      cases s with
      | nil =>
        simp only [List.nil_append, List.cons_append, List.append_eq, applyOps]
        rw [applyOps_snoc_consume_nil _ (by simp) rs]
        rfl
      | cons b s2 =>
        simp only [List.cons_append, List.append_eq, applyOps]
        rw [ih]
        cases applyOps rs s2 <;> rfl

/-- A trailing `no_edit` record consumes the last source character and leaves
it in place. -/
theorem applyOps_snoc_ne (ci : ℕ) (sc tc : Option (ℕ × Char)) (a : Char) :
    ∀ (ops : List OpRec) (s : List Char),
      applyOps (ops ++ [⟨RecKind.no_edit, ci, sc, tc⟩]) (s ++ [a]) =
        (applyOps ops s).map (fun out => out ++ [a]) := by
  intro ops
  induction ops with
  | nil =>
    intro s
    cases s with
    | nil => rfl
    | cons b s2 =>
      simp only [List.nil_append, List.cons_append, List.append_eq, applyOps]
      rw [applyOps_nil_snoc]
      rfl
  | cons r0 rs ih =>
    intro s
    obtain ⟨k0, ci0, sc0, tc0⟩ := r0
    cases k0 with
    | inserting =>
      cases tc0 with
      | none => rfl
      | some p =>
        simp only [List.cons_append, List.append_eq, applyOps]
        rw [ih]
        cases applyOps rs s <;> rfl
    | deleting =>
      cases s with
      | nil =>
        simp only [List.nil_append, List.cons_append, List.append_eq, applyOps]
        exact applyOps_snoc_consume_nil _ (by simp) rs
      | cons b s2 =>
        simp only [List.cons_append, List.append_eq, applyOps]
        exact ih s2
    | replacing =>
      cases tc0 with
      | none => rfl
      | some p =>
        cases s with
        | nil =>
          simp only [List.nil_append, List.cons_append, List.append_eq, applyOps]
          rw [applyOps_snoc_consume_nil _ (by simp) rs]
          rfl
        | cons b s2 =>
          simp only [List.cons_append, List.append_eq, applyOps]
          rw [ih]
          cases applyOps rs s2 <;> rfl
    | no_edit =>
      cases s with
      | nil =>
        simp only [List.nil_append, List.cons_append, List.append_eq, applyOps]
        rw [applyOps_snoc_consume_nil _ (by simp) rs]
        rfl
      | cons b s2 =>
        simp only [List.cons_append, List.append_eq, applyOps]
        rw [ih]
        cases applyOps rs s2 <;> rfl

/-- The backtrace walk emits at most `i + j` records. -/
theorem opsWalkAux_length (src tgt : List Char) (rc ic dc : ℤ) :
    ∀ fuel i j, (opsWalkAux src tgt rc ic dc fuel i j).length ≤ i + j := by
  intro fuel
  induction fuel with
  | zero => intro i j; simp [opsWalkAux]
  | succ fuel ih =>
    intro i j
    cases i with
    | zero =>
      cases j with
      | zero => simp [opsWalkAux]
      | succ j =>
        simp only [opsWalkAux, List.length_cons]
        have := ih 0 j
        omega
    | succ i =>
      cases j with
      | zero =>
        simp only [opsWalkAux, List.length_cons]
        have := ih i 0
        omega
      | succ j =>
        cases hB : backM src tgt rc ic dc (i + 1) (j + 1) with
        | noEdit =>
          simp only [opsWalkAux, hB, List.length_cons]
          have := ih i j
          omega
        | insert =>
          simp only [opsWalkAux, hB, List.length_cons]
          have := ih (i + 1) j
          omega
        | delete =>
          simp only [opsWalkAux, hB, List.length_cons]
          have := ih i (j + 1)
          omega
        | replace =>
          simp only [opsWalkAux, hB, List.length_cons]
          have := ih i j
          omega

/-- The round trip of the backtrace walk: applying the reversed (forward
order) records emitted from position `(i, j)` to the first `i` source
characters reconstructs the first `j` target characters. -/
theorem opsWalkAux_roundtrip (src tgt : List Char) (rc ic dc : ℤ) :
    ∀ fuel i j, i + j ≤ fuel → i ≤ src.length → j ≤ tgt.length →
      applyOps ((opsWalkAux src tgt rc ic dc fuel i j).reverse) (src.take i) =
        some (tgt.take j) := by
  intro fuel
  induction fuel with
  | zero =>
    intro i j hf hi hj
    have h1 : i = 0 := by omega
    have h2 : j = 0 := by omega
    subst h1 h2
    rfl
  | succ fuel ih =>
    intro i j hf hi hj
    cases i with
    | zero =>
      cases j with
      | zero => rfl
      | succ j =>
        have hj' : j < tgt.length := by omega
        simp only [opsWalkAux, List.reverse_cons]
        rw [applyOps_snoc_ins, ih 0 j (by omega) hi (by omega)]
        rw [take_succ_getD tgt j hj']
        rfl
    | succ i =>
      have hi' : i < src.length := by omega
      cases j with
      | zero =>
        simp only [opsWalkAux, List.reverse_cons]
        rw [take_succ_getD src i hi', applyOps_snoc_del]
        exact ih i 0 (by omega) (by omega) hj
      | succ j =>
        have hj' : j < tgt.length := by omega
        cases hB : backM src tgt rc ic dc (i + 1) (j + 1) with
        | insert =>
          simp only [opsWalkAux, hB, List.reverse_cons]
          rw [applyOps_snoc_ins, ih (i + 1) j (by omega) hi (by omega)]
          rw [take_succ_getD tgt j hj']
          rfl
        | delete =>
          simp only [opsWalkAux, hB, List.reverse_cons]
          rw [take_succ_getD src i hi', applyOps_snoc_del]
          exact ih i (j + 1) (by omega) (by omega) hj
        | replace =>
          simp only [opsWalkAux, hB, List.reverse_cons]
          rw [take_succ_getD src i hi', applyOps_snoc_rep,
            ih i j (by omega) (by omega) (by omega)]
          rw [take_succ_getD tgt j hj']
          rfl
        | noEdit =>
          have hc : src.getD i ' ' = tgt.getD j ' ' :=
            backM_noEdit_char_eq src tgt rc ic dc i j hB
          simp only [opsWalkAux, hB, List.reverse_cons]
          rw [take_succ_getD src i hi', applyOps_snoc_ne,
            ih i j (by omega) (by omega) (by omega)]
          rw [take_succ_getD tgt j hj', hc]
          rfl

/-- The distance matrix of a string against itself is zero on the whole
diagonal: every diagonal step compares equal characters and copies the
previous diagonal cell. -/
theorem distM_diag (s : List Char) (rc ic dc : ℤ) :
    ∀ i, distM s s rc ic dc i i = 0 := by
  intro i
  induction i with
  | zero => rfl
  | succ i ih => rw [distM_succ_succ, if_pos rfl]; exact ih

/-- The backtrace walk of a string against itself emits only `no_edit`
records. -/
theorem opsWalkAux_diag_no_edit (s : List Char) (rc ic dc : ℤ) :
    ∀ fuel i, ∀ r ∈ opsWalkAux s s rc ic dc fuel i i, r.kind = RecKind.no_edit := by
  intro fuel
  induction fuel with
  | zero => intro i r hr; simp [opsWalkAux] at hr
  | succ fuel ih =>
    intro i r hr
    cases i with
    | zero => simp [opsWalkAux] at hr
    | succ i =>
      have hB : backM s s rc ic dc (i + 1) (i + 1) = Op.noEdit := by
        rw [backM_succ_succ, if_pos rfl]
      simp only [opsWalkAux, hB, List.mem_cons] at hr
      rcases hr with rfl | hr
      · rfl
      · exact ih i r hr

/-! ## Claims about the operation history -/

/-- C5: applying the records returned by `operations_history`, in the
returned forward order, to the lowercased source string reconstructs the
lowercased target string exactly, for every pair of strings and every cost
triple. -/
theorem operations_history_roundtrip (source target : List Char) (rc ic dc : ℤ) :
    applyOps (operationsHistory source target rc ic dc) (lower source) =
      some (lower target) := by
  have hs : source.length = (lower source).length := (List.length_map _ _).symm
  have ht : target.length = (lower target).length := (List.length_map _ _).symm
  have h := opsWalkAux_roundtrip (lower source) (lower target) rc ic dc
    (source.length + target.length) source.length target.length (le_refl _)
    (le_of_eq hs) (le_of_eq ht)
  rw [show (lower source).take source.length = lower source from
      List.take_of_length_le (le_of_eq (List.length_map _ _)),
    show (lower target).take target.length = lower target from
      List.take_of_length_le (le_of_eq (List.length_map _ _))] at h
  exact h

/-- C8: the backtrace walk terminates (it is a total function of the matrix
indices), the returned history is a finite list of at most `M + N` records,
and it is the reverse of the reverse-order walk started at `(M, N)`; being a
pure recomputable function, a second call returns the same list. -/
theorem operations_history_finite_bound (source target : List Char) (rc ic dc : ℤ) :
    (operationsHistory source target rc ic dc).length ≤
      source.length + target.length ∧
    operationsHistory source target rc ic dc =
      (opsWalk (lower source) (lower target) rc ic dc
        source.length target.length).reverse := by
  refine ⟨?_, rfl⟩
  unfold operationsHistory opsWalk
  rw [List.length_reverse]
  exact opsWalkAux_length (lower source) (lower target) rc ic dc _ _ _

/-- C9: for every string and every cost triple — including zero or negative
replace costs, which the equality branch never reads — the edit distance of
a string to itself is 0 and the operation history consists solely of
`no_edit` records. -/
theorem self_distance_zero_all_no_edit (source : List Char) (rc ic dc : ℤ) :
    getEditDistance source source rc ic dc = 0 ∧
    ∀ r ∈ operationsHistory source source rc ic dc, r.kind = RecKind.no_edit := by
  constructor
  · exact distM_diag (lower source) rc ic dc source.length
  · intro r hr
    rw [operationsHistory, List.mem_reverse] at hr
    exact opsWalkAux_diag_no_edit (lower source) rc ic dc _ _ r hr

/-- C9 witness: `self_distance_zero_all_no_edit` evaluated at `source="ab"`
with the cost triple `(replace, insert, delete) = (-3, 5, 2)`: the distance
is 0 and the first history record is a `no_edit` record. -/
theorem self_distance_zero_all_no_edit_witness :
    getEditDistance ['a','b'] ['a','b'] (-3) 5 2 = 0 ∧
    ((operationsHistory ['a','b'] ['a','b'] (-3) 5 2).headD
      ⟨RecKind.no_edit, 0, none, none⟩).kind = RecKind.no_edit :=
  ⟨(self_distance_zero_all_no_edit ['a','b'] (-3) 5 2).1,
    (self_distance_zero_all_no_edit ['a','b'] (-3) 5 2).2 _ (by decide)⟩

/-! ## Helper lemmas about the corrector -/

/-- The selection loop of `__best_candidate__` computes the first maximum:
folding `bestStep` from any start state keeps the start state unless some
element strictly exceeds it, in which case it returns the earliest element
with maximal probability. -/
theorem foldl_bestStep_firstMaxSel :
    ∀ (l : List (List Char × ℚ)) (st : ℚ × List Char),
      l.foldl bestStep st =
        (firstMaxSel l).elim st
          (fun y => if y.2 > st.1 then (y.2, y.1) else st) := by
  intro l
  induction l with
  | nil => intro st; rfl
  | cons x xs ih =>
    intro st
    obtain ⟨sp, sc⟩ := st
    obtain ⟨xc, xp⟩ := x
    simp only [List.foldl_cons]
    rw [ih (bestStep (sp, sc) (xc, xp))]
    have hbs : bestStep (sp, sc) (xc, xp) =
        if xp > sp then (xp, xc) else (sp, sc) := rfl
    cases hfs : firstMaxSel xs with
    | none =>
      have hfx : firstMaxSel ((xc, xp) :: xs) = some (xc, xp) := by
        simp [firstMaxSel, hfs]
      rw [hfx, hbs]
      simp only [hfs, Option.elim_none, Option.elim_some]
    | some y =>
      obtain ⟨yc, yp⟩ := y
      have hfx : firstMaxSel ((xc, xp) :: xs) =
          if yp > xp then some (yc, yp) else some (xc, xp) := by
        simp [firstMaxSel, hfs]
      rw [hfx, hbs]
      simp only [hfs, Option.elim_some]
      by_cases h2 : xp > sp
      · rw [if_pos h2]
        dsimp only
        by_cases h1 : yp > xp
        · rw [if_pos h1, if_pos h1]
          simp only [Option.elim_some]
          rw [if_pos (by linarith : yp > sp)]
        · rw [if_neg h1, if_neg h1]
          simp only [Option.elim_some]
          rw [if_pos h2]
      · rw [if_neg h2]
        dsimp only
        by_cases h1 : yp > xp
        · rw [if_pos h1]
          simp only [Option.elim_some]
        · rw [if_neg h1]
          simp only [Option.elim_some]
          rw [if_neg h2,
            if_neg (not_lt.mpr (by linarith [not_lt.mp h1, not_lt.mp h2] : yp ≤ sp))]

/-- The first maximum is an element of the list. -/
theorem firstMaxSel_mem (l : List (List Char × ℚ)) (y : List Char × ℚ)
    (h : firstMaxSel l = some y) : y ∈ l := by
  induction l with
  | nil => exact absurd h (by simp [firstMaxSel])
  | cons x xs ih =>
    cases hfs : firstMaxSel xs with
    | none =>
      simp only [firstMaxSel, hfs] at h
      rw [← Option.some_inj.mp h]
      exact List.mem_cons_self x xs
    | some z =>
      simp only [firstMaxSel, hfs] at h
      by_cases hz : z.2 > x.2
      · rw [if_pos hz] at h
        exact List.mem_cons_of_mem x (ih (hfs.trans (by rw [Option.some_inj.mp h])))
      · rw [if_neg hz] at h
        rw [← Option.some_inj.mp h]
        exact List.mem_cons_self x xs

/-- `firstMaxSel` is `none` only on the empty list. -/
theorem firstMaxSel_eq_none (l : List (List Char × ℚ))
    (h : firstMaxSel l = none) : l = [] := by
  cases l with
  | nil => rfl
  | cons x xs =>
    cases hfs : firstMaxSel xs <;> simp [firstMaxSel, hfs] at h
    split at h <;> exact Option.noConfusion h

/-- Candidate scores are nonnegative: the frequency is a count and the
distance term is the reciprocal of one plus a nonnegative matrix cell. -/
theorem score_nonneg (vocab : List (List Char)) (nEdit : ℤ) (w cand : List Char) :
    0 ≤ score vocab nEdit w cand := by
  have hd : (0 : ℤ) ≤ getEditDistance w cand nEdit 1 1 :=
    distM_nonneg (lower w) (lower cand) nEdit 1 1 w.length cand.length
  rw [score]
  have hd' : (0 : ℚ) ≤ ((getEditDistance w cand nEdit 1 1 : ℤ) : ℚ) := by
    exact_mod_cast hd
  have hpos : (0 : ℚ) < ((getEditDistance w cand nEdit 1 1 : ℤ) : ℚ) + 1 := by
    linarith
  exact mul_nonneg (Nat.cast_nonneg _) (le_of_lt (by positivity))

/-- The selection of `__best_candidate__` expressed against `firstMaxSel`:
with nonnegative probabilities (one per candidate) the loop returns the
empty string on an empty candidate list, and otherwise the earliest
candidate with maximal probability. -/
theorem bestCandidate_firstMaxSel (cands : List (List Char)) (probs : List ℚ)
    (hlen : probs.length = cands.length) (hpos : ∀ p ∈ probs, 0 ≤ p) :
    (cands = [] → bestCandidate cands probs = []) ∧
    (cands ≠ [] →
      (firstMaxSel (cands.zip probs)).map Prod.fst =
        some (bestCandidate cands probs)) := by
  constructor
  · intro hc
    simp [bestCandidate, hc]
  · intro hc
    cases hfs : firstMaxSel (cands.zip probs) with
    | none =>
      exfalso
      have hnil := firstMaxSel_eq_none _ hfs
      rcases List.zip_eq_nil_iff.mp hnil with h | h
      · exact hc h
      · rw [h] at hlen
        exact hc (List.length_eq_zero.mp hlen.symm)
    | some y =>
      obtain ⟨c, p⟩ := y
      have hyin := firstMaxSel_mem _ _ hfs
      have hp : 0 ≤ p := hpos p (List.of_mem_zip hyin).2
      have hb : bestCandidate cands probs =
          ((cands.zip probs).foldl bestStep (-1, [])).2 := rfl
      rw [hb, foldl_bestStep_firstMaxSel, hfs]
      simp only [Option.elim_some, Option.map_some']
      rw [if_pos (by dsimp only; linarith : ((c, p).2 : ℚ) > (-1, ([] : List Char)).1)]

/-! ## Claims about the corrector -/

/-- C1 (code bug): the claim — and §7 of the spec — require that a flagged
token with zero candidates is left unchanged in the corrected output.  The
code's `__best_candidate__` leaves `best_candidates = ""` for such an entry
and `retrive_corrected` then runs `corrected_string.replace(token, "")`,
which deletes every occurrence of the token instead of leaving it: for the
text `"qqq"` with an empty vocabulary (every token flagged, zero candidates)
and with the vocabulary `["banana"]` (every word beyond `maxEdits = 2`), the
corrected output is the empty string, not `"qqq"`.  No exception is raised
(the model is total), but the token is not preserved. -/
theorem no_candidate_token_is_deleted :
    retriveCorrected [['q','q','q']] [] 2 = [] ∧
    retriveCorrected [['q','q','q']] [['b','a','n','a','n','a']] 2 = [] ∧
    (misspelledWords [['q','q','q']] [['b','a','n','a','n','a']] 2).map
      Entry.candidates = [[]] ∧
    retriveCorrected [['q','q','q']] [['b','a','n','a','n','a']] 2 ≠ ['q','q','q'] :=
  ⟨by decide, by decide, by decide, by decide⟩

/-- C6: for every flagged entry, the candidate list is exactly the filter of
the entire vocabulary — in vocabulary order, with multiplicity — by the
predicate "edit distance from the flagged token, computed with
`replace_cost=2` and the engine's unit insert/delete costs, is at most
`n_edit`"; a word is a candidate iff it is a vocabulary member within the
threshold. -/
theorem candidates_are_vocab_filter (tokens vocab : List (List Char)) (nEdit : ℤ) :
    ∀ e ∈ misspelledWords tokens vocab nEdit,
      e.candidates =
        vocab.filter (fun v => decide (getEditDistance e.misspelled v 2 1 1 ≤ nEdit)) ∧
      ∀ v, v ∈ e.candidates ↔
        v ∈ vocab ∧ getEditDistance e.misspelled v 2 1 1 ≤ nEdit := by
  intro e he
  rw [misspelledWords, List.mem_map] at he
  obtain ⟨w, hw, rfl⟩ := he
  refine ⟨rfl, fun v => ?_⟩
  have hm : (mkEntry vocab nEdit w).misspelled = w := rfl
  rw [hm]
  show v ∈ findCandidates vocab nEdit w ↔ _
  rw [findCandidates, List.mem_filter]
  simp only [decide_eq_true_eq]

/-- C6 witness: `candidates_are_vocab_filter` applied to the single flagged
token `"ax"` of the corrector built on the vocabulary `["ab"]` with
`n_edit = 2`; the filter keeps `"ab"` (replace distance 2). -/
theorem candidates_are_vocab_filter_witness :
    (mkEntry [['a','b']] 2 ['a','x']).candidates =
      [['a','b']].filter
        (fun v => decide (getEditDistance
          (mkEntry [['a','b']] 2 ['a','x']).misspelled v 2 1 1 ≤ 2)) ∧
    (mkEntry [['a','b']] 2 ['a','x']).candidates = [['a','b']] := by
  have h :=
    (candidates_are_vocab_filter [['a','x']] [['a','b']] 2
      (mkEntry [['a','b']] 2 ['a','x']) (List.mem_singleton.mpr rfl)).1
  exact ⟨h, h.trans (by decide)⟩

/-- C10 (amended): after construction, each entry's `best_candidates` is the
empty string when its candidate list is empty, and otherwise it is the
earliest candidate with maximal probability (a later candidate replaces the
current best only on a strictly greater probability) — which is the empty
string exactly when that earliest maximal candidate is itself the empty
string, a situation that occurs when the vocabulary contains an empty word;
hence the original "empty iff no candidates" fails only in that case (see
the counterexample). -/
theorem best_candidate_earliest_max (tokens vocab : List (List Char)) (nEdit : ℤ) :
    ∀ e ∈ misspelledWords tokens vocab nEdit,
      (e.candidates = [] → e.best_candidates = []) ∧
      (e.candidates ≠ [] →
        (firstMaxSel (e.candidates.zip e.probabilities)).map Prod.fst =
          some e.best_candidates) := by
  intro e he
  rw [misspelledWords, List.mem_map] at he
  obtain ⟨w, hw, rfl⟩ := he
  have h := bestCandidate_firstMaxSel (findCandidates vocab nEdit w)
    ((findCandidates vocab nEdit w).map (score vocab nEdit w))
    (List.length_map _ _)
    (by
      intro p hp
      rw [List.mem_map] at hp
      obtain ⟨cand, _, rfl⟩ := hp
      exact score_nonneg vocab nEdit w cand)
  exact h

/-- C10 witness: `best_candidate_earliest_max` applied to the corrector built
on the text `"az"` and the vocabulary `["aa", "ab"]` with `n_edit = 2`: both
words are candidates at distance 2 with equal scores, and the earliest
maximal candidate `"aa"` is selected. -/
theorem best_candidate_earliest_max_witness :
    (firstMaxSel ((mkEntry [['a','a'],['a','b']] 2 ['a','z']).candidates.zip
        (mkEntry [['a','a'],['a','b']] 2 ['a','z']).probabilities)).map Prod.fst =
      some (mkEntry [['a','a'],['a','b']] 2 ['a','z']).best_candidates :=
  (best_candidate_earliest_max [['a','z']] [['a','a'],['a','b']] 2
    (mkEntry [['a','a'],['a','b']] 2 ['a','z']) (List.mem_singleton.mpr rfl)).2
    (by decide)

/-- C10 counterexample: the claimed equivalence "best_candidates is empty iff
the candidate list is empty" fails on the corrector built on the text
`"zz"` and the vocabulary containing only the empty word: the empty word is
a candidate (distance `2 ≤ n_edit`), its probability `(1·1/3)` exceeds the
initial `-1`, so `best_candidates` is the empty string while the candidate
list is nonempty. -/
theorem best_candidate_empty_string_cex :
    (mkEntry [([] : List Char)] 2 ['z','z']) ∈ misspelledWords [['z','z']] [[]] 2 ∧
    (mkEntry [([] : List Char)] 2 ['z','z']).best_candidates = [] ∧
    (mkEntry [([] : List Char)] 2 ['z','z']).candidates ≠ [] := by
  refine ⟨List.mem_singleton.mpr rfl, ?_, by decide⟩
  have hd : getEditDistance ['z','z'] [] 2 1 1 = 2 := by decide
  have hcount : ([([] : List Char)]).count ([] : List Char) = 1 := by decide
  have hs : score [([] : List Char)] 2 ['z','z'] [] = 1 / 3 := by
    show ((([([] : List Char)]).count ([] : List Char) : ℚ)) *
        (1 / (((getEditDistance ['z','z'] [] 2 1 1 : ℤ) : ℚ) + 1)) = 1 / 3
    rw [hd, hcount]
    norm_num
  have hc : findCandidates [([] : List Char)] 2 ['z','z'] = [[]] := by decide
  have hb : (mkEntry [([] : List Char)] 2 ['z','z']).best_candidates =
      bestCandidate (findCandidates [([] : List Char)] 2 ['z','z'])
        ((findCandidates [([] : List Char)] 2 ['z','z']).map
          (score [([] : List Char)] 2 ['z','z'])) := rfl
  rw [hb, hc]
  simp only [List.map_cons, List.map_nil, hs]
  show ((([([] : List Char)]).zip [(1 : ℚ) / 3]).foldl bestStep (-1, [])).2 = []
  simp only [List.zip_cons_cons, List.foldl_cons]
  rw [show bestStep (-1, ([] : List Char)) (([] : List Char), (1 : ℚ) / 3) =
      ((1 : ℚ) / 3, ([] : List Char)) from by norm_num [bestStep]]
  rfl

end SpellingCorrection

